import Mathlib

/-!
# Verification of the shared-iter library

This file gives a shallow embedding of the `shared_iter` Rust crate
(`src/lib.rs`) and proves properties about it.

The crate wraps an iterator in `SharedIter`. A `SharedIterCore` owns the
wrapped iterator together with a `Slab` of `mpsc::Sender`s, one per live
`SharedIter` handle; each `SharedIter` holds the slab key of its sender and
the matching `Receiver`. `SharedIterCore::next` pulls the wrapped iterator
once and broadcasts the value to every sender in the slab.
`SharedIter::next` first tries `try_recv` on its own receiver; on `Empty`
it locks the core, runs `SharedIterCore::next`, and tries `try_recv` again.
`Clone` registers a fresh channel (`new_recv`); `Drop` removes the handle's
sender from the slab (`remove_recv`) before the receiver is destroyed.

Embedding choices:
* The wrapped iterator is modelled as its pull sequence `src : Nat → Option α`
  together with a counter `pulled` of pulls performed so far; `iter.next()`
  is `src pulled` followed by incrementing `pulled`.
* Each mpsc channel is a `Chan`: a FIFO `buf` of sent-but-not-received
  values and a `recvAlive` flag recording whether the `Receiver` still
  exists.  The fields `hist` (values received so far through this channel)
  and `base` (how many values had been produced when the channel was
  created) are ghost history variables: no operation reads them.
* The slab of senders is `slab : List (Option Nat)`: slot `i` holds the
  channel id of the sender registered there, `none` for a vacant slot.
  Channel ids index `chans` and are never reused.  The real slab reuses
  vacant slots (we fill the first vacant slot; the slab crate picks the
  most recently freed one, but send iterates in index order and each
  registered channel receives the value exactly once, so slot choice is
  not observable in any property proved here).
* `send(val)` walks the occupied slots in order and stops at the first
  sender whose receiver is gone (`SendError`); the `expect("")` panic this
  triggers in `SharedIterCore::next` is modelled by the `panicked` flag
  (a panicked core makes later locked sections no-ops, mirroring mutex
  poisoning).
* Concurrency is modelled by traces of the atomic actions of the system:
  a locked `SharedIterCore::next` (`Act.pull`), an atomic `try_recv` that
  removes a value (`Act.recv`), `Clone` (`Act.clone`) and `Drop`
  (`Act.drop`).  Every execution of the real library, under any thread
  interleaving, performs some sequence of these atomic actions, because
  the core operations run under the single mutex and `try_recv` is atomic
  on the calling handle's own channel.
-/

namespace SharedIterVerif

/-- One mpsc channel: the queue of sent-but-not-yet-received values, plus
ghost history fields and the receiver-liveness flag. -/
structure Chan (α : Type) where
  buf : List α
  hist : List α
  base : Nat
  recvAlive : Bool
deriving Repr, DecidableEq

/-- The whole shared state: wrapped iterator (as its pull sequence and a
pull counter), the slab of senders, the channels, and the panic flag. -/
structure SIState (α : Type) where
  src : Nat → Option α
  pulled : Nat
  slab : List (Option Nat)
  chans : List (Chan α)
  panicked : Bool

/-- A `SharedIter` handle: its slab slot (the `id` field in the Rust code)
and the id of the channel whose receiver it owns. -/
structure Cursor where
  slot : Nat
  chan : Nat
deriving Repr, DecidableEq

/-- The pull sequence of a finite source iterator given by a list. -/
def srcOf (l : List α) : Nat → Option α := fun n => l[n]?

/-- The values produced (pulled and broadcast) so far, in production order. -/
def producedL (s : SIState α) : List α :=
  (List.range s.pulled).filterMap s.src

/-- Append a value to a channel's queue (the effect of `Sender::send`). -/
def pushC (v : α) (ch : Chan α) : Chan α :=
  { ch with buf := ch.buf ++ [v] }

/-- Broadcast `v` to every sender in the slab, in slot order, stopping at
the first sender whose receiver is gone; returns the updated channels and
whether every send succeeded (`SharedIterCore::send`). -/
def sendAll (v : α) : List (Option Nat) → List (Chan α) → List (Chan α) × Bool
  | [], chans => (chans, true)
  | none :: rest, chans => sendAll v rest chans
  | some j :: rest, chans =>
    match chans[j]? with
    | some ch =>
      if ch.recvAlive then sendAll v rest (chans.set j (pushC v ch))
      else (chans, false)
    | none => (chans, false)

/-- `SharedIterCore::next`: pull the wrapped iterator once; on a value,
broadcast it (a failed send is the `expect("")` panic, recorded in
`panicked`).  A panicked core poisons the mutex, so the locked section is
a no-op afterwards. -/
def coreNext (s : SIState α) : SIState α :=
  if s.panicked then s
  else
    match s.src s.pulled with
    | some v =>
      let r := sendAll v s.slab s.chans
      { s with pulled := s.pulled + 1, chans := r.1, panicked := !r.2 }
    | none => { s with pulled := s.pulled + 1 }

/-- Result of `Receiver::try_recv`. -/
inductive RecvRes (α : Type) where
  | ok (v : α)
  | empty
  | disconnected
deriving Repr, DecidableEq

/-- `try_recv` on channel `j`: pop the front of the queue if nonempty;
on an empty queue report `Empty` while a sender for the channel is still
registered and `Disconnected` otherwise.  Popping also records the value
in the ghost `hist`. -/
def tryRecv (j : Nat) (s : SIState α) : RecvRes α × SIState α :=
  match s.chans[j]? with
  | some ch =>
    match ch.buf with
    | v :: rest =>
      (RecvRes.ok v,
        { s with chans :=
            s.chans.set j { ch with buf := rest, hist := ch.hist ++ [v] } })
    | [] => if (some j) ∈ s.slab then (RecvRes.empty, s) else (RecvRes.disconnected, s)
  | none => (RecvRes.disconnected, s)

/-- `<SharedIter as Iterator>::next`: `try_recv`; on `Ok` return the value,
on `Disconnected` return `None`, on `Empty` lock the core, run
`SharedIterCore::next`, and `try_recv().ok()`. -/
def cursorNext (c : Cursor) (s : SIState α) : Option α × SIState α :=
  match tryRecv c.chan s with
  | (RecvRes.ok v, s₁) => (some v, s₁)
  | (RecvRes.disconnected, s₁) => (none, s₁)
  | (RecvRes.empty, s₁) =>
    let s₂ := coreNext s₁
    match tryRecv c.chan s₂ with
    | (RecvRes.ok v, s₃) => (some v, s₃)
    | (RecvRes.empty, s₃) => (none, s₃)
    | (RecvRes.disconnected, s₃) => (none, s₃)

/-- Index of the first vacant slab slot (the length if there is none). -/
def vacantIdx : List (Option Nat) → Nat
  | [] => 0
  | none :: _ => 0
  | some _ :: rest => vacantIdx rest + 1

/-- Insert a sender for channel `j` into the first vacant slab slot,
appending a slot if all are occupied (`Slab::insert`). -/
def slabInsert (j : Nat) : List (Option Nat) → List (Option Nat)
  | [] => [some j]
  | none :: rest => some j :: rest
  | some k :: rest => some k :: slabInsert j rest

/-- `SharedIterCore::new_recv` as used by `Clone`: create a fresh channel
(empty queue, live receiver, ghost base = number of values produced so
far) and register its sender in the slab; the new handle remembers its
slot and channel. -/
def cloneS (s : SIState α) : Cursor × SIState α :=
  (⟨vacantIdx s.slab, s.chans.length⟩,
   { s with
      slab := slabInsert s.chans.length s.slab,
      chans := s.chans ++ [⟨[], [], (producedL s).length, true⟩] })

/-- Mark the receiver of channel `j` as destroyed. -/
def killChan (j : Nat) (chans : List (Chan α)) : List (Chan α) :=
  match chans[j]? with
  | some ch => chans.set j { ch with recvAlive := false }
  | none => chans

/-- `<SharedIter as Drop>::drop`: remove the handle's sender from the slab
under the lock (`remove_recv`), after which the receiver is destroyed. -/
def dropC (c : Cursor) (s : SIState α) : SIState α :=
  { s with slab := s.slab.set c.slot none, chans := killChan c.chan s.chans }

/-- `SharedIter::new` (reached through `ShareIterator::share`): a fresh
core whose slab holds the root handle's sender in slot 0, with channel 0. -/
def initState (f : Nat → Option α) : SIState α :=
  { src := f, pulled := 0, slab := [some 0],
    chans := [⟨[], [], 0, true⟩], panicked := false }

/-- The root handle returned by `share()`. -/
def rootCursor : Cursor := ⟨0, 0⟩

/-- `iter.take n` driven to completion and collected: call `next` up to
`n` times, stopping early when it returns `none`. -/
def takeN (c : Cursor) : Nat → SIState α → List α × SIState α
  | 0, s => ([], s)
  | n + 1, s =>
    match cursorNext c s with
    | (some v, s₁) =>
      let r := takeN c n s₁
      (v :: r.1, r.2)
    | (none, s₁) => ([], s₁)

/-- The results of `n` consecutive `next()` calls (not stopping at
`none`), for comparing against the raw source pull by pull. -/
def nextsN (c : Cursor) : Nat → SIState α → List (Option α) × SIState α
  | 0, s => ([], s)
  | n + 1, s =>
    let r := cursorNext c s
    let r' := nextsN c n r.2
    (r.1 :: r'.1, r'.2)

/-- The first `n` pull results of the un-wrapped source iterator itself:
the reference the shared wrapper is compared against. -/
def sourcePulls (f : Nat → Option α) (n : Nat) : List (Option α) :=
  (List.range n).map f

/-- The atomic actions of the system: a locked `SharedIterCore::next`, an
atomic successful-or-empty `try_recv` on channel `j`, a `Clone`, and a
`Drop` of the handle registered in slot `i`. -/
inductive Act where
  | pull
  | recv (j : Nat)
  | clone
  | drop (i : Nat)
deriving Repr, DecidableEq

/-- Effect of one atomic action on the shared state. -/
def stepA (a : Act) (s : SIState α) : SIState α :=
  match a with
  | Act.pull => coreNext s
  | Act.recv j => (tryRecv j s).2
  | Act.clone => (cloneS s).2
  | Act.drop i =>
    match s.slab[i]? with
    | some (some j) => dropC ⟨i, j⟩ s
    | _ => s

/-- Run a trace of atomic actions. -/
def steps (l : List Act) (s : SIState α) : SIState α :=
  l.foldl (fun t a => stepA a t) s

/-- All registered senders point at existing channels with live receivers. -/
def SlotsAlive (sl : List (Option Nat)) (chans : List (Chan α)) : Prop :=
  ∀ j, some j ∈ sl → ∃ ch, chans[j]? = some ch ∧ ch.recvAlive = true

/-- No channel has two senders registered for it. -/
def SlotsInj (sl : List (Option Nat)) : Prop :=
  ∀ j, sl.count (some j) ≤ 1

theorem filterMap_range_getElem (l : List α) :
    ∀ n, (List.range n).filterMap (fun k => l[k]?) = l.take n := by
  intro n
  induction n with
  | zero => simp
  | succ n ih =>
      rw [List.range_succ, List.filterMap_append, ih, List.take_succ]
      cases h : l[n]? <;> simp [h]

theorem producedL_srcOf (l : List α) (s : SIState α) (h : s.src = srcOf l) :
    producedL s = l.take s.pulled := by
  rw [producedL, h]
  exact filterMap_range_getElem l s.pulled

theorem tryRecv_pop {s : SIState α} {j : Nat} {ch : Chan α} {v : α} {rest : List α}
    (hc : s.chans[j]? = some ch) (hb : ch.buf = v :: rest) :
    tryRecv j s =
      (RecvRes.ok v,
        { s with chans :=
            s.chans.set j { ch with buf := rest, hist := ch.hist ++ [v] } }) := by
  simp [tryRecv, hc, hb]

theorem tryRecv_nil_mem {s : SIState α} {j : Nat} {ch : Chan α}
    (hc : s.chans[j]? = some ch) (hb : ch.buf = []) (hm : some j ∈ s.slab) :
    tryRecv j s = (RecvRes.empty, s) := by
  simp [tryRecv, hc, hb, hm]

theorem tryRecv_nil_nomem {s : SIState α} {j : Nat} {ch : Chan α}
    (hc : s.chans[j]? = some ch) (hb : ch.buf = []) (hm : some j ∉ s.slab) :
    tryRecv j s = (RecvRes.disconnected, s) := by
  simp [tryRecv, hc, hb, hm]

theorem tryRecv_nochan {s : SIState α} {j : Nat}
    (hc : s.chans[j]? = none) :
    tryRecv j s = (RecvRes.disconnected, s) := by
  simp [tryRecv, hc]

theorem coreNext_panicked {s : SIState α} (h : s.panicked = true) :
    coreNext s = s := by
  simp [coreNext, h]

theorem coreNext_some {s : SIState α} {v : α}
    (hp : s.panicked = false) (hv : s.src s.pulled = some v) :
    coreNext s =
      { s with pulled := s.pulled + 1, chans := (sendAll v s.slab s.chans).1,
               panicked := !(sendAll v s.slab s.chans).2 } := by
  simp [coreNext, hp, hv]

theorem coreNext_none {s : SIState α}
    (hp : s.panicked = false) (hv : s.src s.pulled = none) :
    coreNext s = { s with pulled := s.pulled + 1 } := by
  simp [coreNext, hp, hv]

theorem sendAll_char (v : α) :
    ∀ (sl : List (Option Nat)) (chans : List (Chan α)),
      SlotsAlive sl chans → SlotsInj sl →
      (sendAll v sl chans).2 = true ∧
      ∀ j, (sendAll v sl chans).1[j]? =
        if some j ∈ sl then (chans[j]?).map (pushC v) else chans[j]? := by
  intro sl
  induction sl with
  | nil =>
      intro chans _ _
      constructor
      · rfl
      · intro j; simp [sendAll]
  | cons o rest ih =>
      intro chans ha hi
      cases o with
      | none =>
          have ha' : SlotsAlive rest chans := by
            intro j hj; exact ha j (List.mem_cons_of_mem _ hj)
          have hi' : SlotsInj rest := by
            intro j
            have := hi j
            rw [List.count_cons] at this
            omega
          have h := ih chans ha' hi'
          refine ⟨h.1, ?_⟩
          intro j
          rw [show sendAll v (none :: rest) chans = sendAll v rest chans from rfl]
          rw [h.2 j]
          simp
      | some k =>
          obtain ⟨ch, hch, hal⟩ := ha k (List.mem_cons_self _ _)
          have hcnt : rest.count (some k) = 0 := by
            have := hi k
            rw [List.count_cons] at this
            simp at this
            omega
          have hknr : some k ∉ rest := List.count_eq_zero.mp hcnt
          have hstep : sendAll v (some k :: rest) chans
              = sendAll v rest (chans.set k (pushC v ch)) := by
            simp [sendAll, hch, hal]
          have ha' : SlotsAlive rest (chans.set k (pushC v ch)) := by
            intro j hj
            by_cases hjk : j = k
            · subst hjk; exact absurd hj hknr
            · obtain ⟨ch', hch', hal'⟩ := ha j (List.mem_cons_of_mem _ hj)
              refine ⟨ch', ?_, hal'⟩
              rw [List.getElem?_set_ne (fun h => hjk h.symm), hch']
          have hi' : SlotsInj rest := by
            intro j
            have := hi j
            rw [List.count_cons] at this
            omega
          have h := ih (chans.set k (pushC v ch)) ha' hi'
          rw [hstep]
          refine ⟨h.1, ?_⟩
          intro j
          rw [h.2 j]
          by_cases hjk : j = k
          · subst hjk
            simp only [hknr, if_false, List.getElem?_set_self', hch]
            simp [List.mem_cons]
          · have hne : (chans.set k (pushC v ch))[j]? = chans[j]? :=
              List.getElem?_set_ne (fun h => hjk h.symm)
            rw [hne]
            by_cases hjr : some j ∈ rest
            · simp [hjr, List.mem_cons]
            · have hnc : some j ∉ (some k :: rest) := by
                intro h'
                rcases List.mem_cons.mp h' with h'' | h''
                · exact hjk (by injection h'')
                · exact hjr h''
              simp [hjr, hnc]

theorem cursorNext_of_pop {s s' : SIState α} {c : Cursor} {v : α}
    (h : tryRecv c.chan s = (RecvRes.ok v, s')) :
    cursorNext c s = (some v, s') := by
  simp [cursorNext, h]

theorem cursorNext_of_disc {s s' : SIState α} {c : Cursor}
    (h : tryRecv c.chan s = (RecvRes.disconnected, s')) :
    cursorNext c s = (none, s') := by
  simp [cursorNext, h]

theorem cursorNext_of_empty_pop {s s' : SIState α} {c : Cursor} {v : α}
    (h1 : tryRecv c.chan s = (RecvRes.empty, s))
    (h2 : tryRecv c.chan (coreNext s) = (RecvRes.ok v, s')) :
    cursorNext c s = (some v, s') := by
  simp [cursorNext, h1, h2]

theorem cursorNext_of_empty_empty {s s' : SIState α} {c : Cursor}
    (h1 : tryRecv c.chan s = (RecvRes.empty, s))
    (h2 : tryRecv c.chan (coreNext s) = (RecvRes.empty, s')) :
    cursorNext c s = (none, s') := by
  simp [cursorNext, h1, h2]

theorem cursorNext_of_empty_disc {s s' : SIState α} {c : Cursor}
    (h1 : tryRecv c.chan s = (RecvRes.empty, s))
    (h2 : tryRecv c.chan (coreNext s) = (RecvRes.disconnected, s')) :
    cursorNext c s = (none, s') := by
  simp [cursorNext, h1, h2]

theorem drain_general (l : List α) :
    ∀ (n : Nat) (s : SIState α) (c : Cursor) (ch : Chan α),
      s.src = srcOf l → s.panicked = false →
      SlotsAlive s.slab s.chans → SlotsInj s.slab →
      some c.chan ∈ s.slab →
      s.chans[c.chan]? = some ch → ch.buf = [] →
      (takeN c n s).1 = (l.drop s.pulled).take n := by
  intro n
  induction n with
  | zero => intro s c ch _ _ _ _ _ _ _; simp [takeN]
  | succ n ih =>
      intro s c ch hsrc hp ha hi hm hc hb
      have h1 : tryRecv c.chan s = (RecvRes.empty, s) := tryRecv_nil_mem hc hb hm
      cases hv : s.src s.pulled with
      | none =>
          have hcore := coreNext_none hp hv
          have h2 : tryRecv c.chan (coreNext s) = (RecvRes.empty, coreNext s) := by
            rw [hcore]
            exact tryRecv_nil_mem (s := { s with pulled := s.pulled + 1 }) hc hb hm
          have hnext : cursorNext c s = (none, coreNext s) := by
            rw [cursorNext_of_empty_empty h1 h2]
          have hlen : l.length ≤ s.pulled := by
            rw [hsrc] at hv
            exact List.getElem?_eq_none_iff.mp hv
          rw [takeN, hnext]
          rw [List.drop_eq_nil_of_le hlen]
          simp
      | some v =>
          have hchar := sendAll_char v s.slab s.chans ha hi
          have hcore := coreNext_some hp hv
          have hok : (sendAll v s.slab s.chans).2 = true := hchar.1
          set ch1 : Chan α := pushC v ch with hch1
          have hcn : (coreNext s).chans[c.chan]? = some ch1 := by
            rw [hcore]
            show (sendAll v s.slab s.chans).1[c.chan]? = some ch1
            rw [hchar.2 c.chan]
            simp [hm, hc]
          have hclen : c.chan < (coreNext s).chans.length :=
            (List.getElem?_eq_some.mp hcn).1
          have hb1 : ch1.buf = v :: [] := by
            rw [hch1, pushC, hb]
            rfl
          set ch2 : Chan α := { ch1 with buf := ([] : List α), hist := ch1.hist ++ [v] } with hch2
          have h2 := tryRecv_pop (s := coreNext s) hcn hb1
          set s₂ : SIState α :=
            { coreNext s with chans := (coreNext s).chans.set c.chan ch2 } with hs₂
          have hnext : cursorNext c s = (some v, s₂) := cursorNext_of_empty_pop h1 h2
          have hslab₂ : s₂.slab = s.slab := by rw [hs₂, hcore]
          have hsrc₂ : s₂.src = srcOf l := by rw [hs₂, hcore]; exact hsrc
          have hpan₂ : s₂.panicked = false := by
            show (coreNext s).panicked = false
            rw [hcore]
            show (!(sendAll v s.slab s.chans).2) = false
            rw [hok]
            rfl
          have hpull₂ : s₂.pulled = s.pulled + 1 := by rw [hs₂, hcore]
          have hc₂ : s₂.chans[c.chan]? = some ch2 := by
            show ((coreNext s).chans.set c.chan _)[c.chan]? = _
            rw [List.getElem?_set_self']
            rw [hcn]
            rfl
          have hchal : ch.recvAlive = true := by
            obtain ⟨ch', hch', hal'⟩ := ha c.chan hm
            rw [hc] at hch'
            injection hch' with h'
            rw [← h'] at hal'
            exact hal'
          have ha₂ : SlotsAlive s₂.slab s₂.chans := by
            rw [hslab₂]
            intro j hj
            by_cases hjc : j = c.chan
            · refine ⟨ch2, ?_, ?_⟩
              · rw [hjc]; exact hc₂
              · exact hchal
            · obtain ⟨ch', hch', hal'⟩ := ha j hj
              refine ⟨pushC v ch', ?_, hal'⟩
              show ((coreNext s).chans.set c.chan _)[j]? = _
              rw [List.getElem?_set_ne (fun h => hjc h.symm)]
              rw [hcore]
              show (sendAll v s.slab s.chans).1[j]? = _
              rw [hchar.2 j]
              simp [hj, hch']
          have hi₂ : SlotsInj s₂.slab := by rw [hslab₂]; exact hi
          have hm₂ : some c.chan ∈ s₂.slab := by rw [hslab₂]; exact hm
          have hdrop : l.drop s.pulled = v :: l.drop (s.pulled + 1) := by
            rw [hsrc] at hv
            have hlt : s.pulled < l.length := (List.getElem?_eq_some.mp hv).1
            rw [List.drop_eq_getElem_cons hlt]
            have : l[s.pulled] = v := (List.getElem?_eq_some.mp hv).2
            rw [this]
          have hb₂ : ch2.buf = [] := by rw [hch2]
          have hih := ih s₂ c ch2 hsrc₂ hpan₂ ha₂ hi₂ hm₂ hc₂ hb₂
          have hpull' : (coreNext s).pulled = s.pulled + 1 := by rw [hcore]
          rw [takeN, hnext]
          show v :: (takeN c n s₂).1 = _
          rw [hih]
          show v :: List.take n (List.drop (coreNext s).pulled l) = _
          rw [hpull', hdrop]
          rfl

theorem mem_slabInsert (j k : Nat) :
    ∀ sl : List (Option Nat), some k ∈ slabInsert j sl ↔ k = j ∨ some k ∈ sl := by
  intro sl
  induction sl with
  | nil => simp [slabInsert]
  | cons o rest ih =>
      cases o with
      | none => simp [slabInsert]
      | some m =>
          rw [slabInsert]
          simp only [List.mem_cons, ih]
          constructor
          · rintro (h | h | h)
            · exact Or.inr (Or.inl h)
            · exact Or.inl h
            · exact Or.inr (Or.inr h)
          · rintro (h | h | h)
            · exact Or.inr (Or.inl h)
            · exact Or.inl h
            · exact Or.inr (Or.inr h)

theorem beq_some_eq_false (j k : Nat) (h : ¬k = j) :
    ((some j : Option Nat) == some k) = false := by
  apply beq_eq_false_iff_ne.mpr
  intro hh
  injection hh with hh'
  exact h hh'.symm

theorem count_slabInsert (j k : Nat) :
    ∀ sl : List (Option Nat),
      (slabInsert j sl).count (some k)
        = sl.count (some k) + if k = j then 1 else 0 := by
  intro sl
  induction sl with
  | nil =>
      show List.count (some k) [some j] = List.count (some k) [] + if k = j then 1 else 0
      rw [List.count_cons, List.count_nil]
      by_cases h : k = j
      · subst h; simp
      · rw [beq_some_eq_false j k h]
        simp [h]
  | cons o rest ih =>
      cases o with
      | none =>
          rw [slabInsert]
          rw [List.count_cons, List.count_cons]
          have h1 : ((none : Option Nat) == some k) = false := rfl
          rw [h1]
          by_cases h : k = j
          · subst h; simp
          · rw [beq_some_eq_false j k h]
            simp [h]
      | some m =>
          rw [slabInsert]
          rw [List.count_cons, List.count_cons, ih]
          omega

theorem slotsAlive_cloneS (s : SIState α) (ha : SlotsAlive s.slab s.chans) :
    SlotsAlive (cloneS s).2.slab (cloneS s).2.chans := by
  intro j hj
  show ∃ ch, (s.chans ++ [⟨[], [], (producedL s).length, true⟩])[j]? = some ch ∧ _
  have hj' : j = s.chans.length ∨ some j ∈ s.slab := (mem_slabInsert _ j s.slab).mp hj
  rcases hj' with h | h
  · subst h
    refine ⟨⟨[], [], (producedL s).length, true⟩, ?_, rfl⟩
    exact List.getElem?_concat_length _ _
  · obtain ⟨ch, hch, hal⟩ := ha j h
    have hlt : j < s.chans.length := (List.getElem?_eq_some.mp hch).1
    refine ⟨ch, ?_, hal⟩
    rw [List.getElem?_append_left hlt]
    exact hch

theorem not_mem_slab_of_alive (s : SIState α) (ha : SlotsAlive s.slab s.chans) :
    some s.chans.length ∉ s.slab := by
  intro hmem
  obtain ⟨ch, hch, _⟩ := ha _ hmem
  have := (List.getElem?_eq_some.mp hch).1
  omega

theorem slotsInj_cloneS (s : SIState α) (ha : SlotsAlive s.slab s.chans)
    (hi : SlotsInj s.slab) :
    SlotsInj (cloneS s).2.slab := by
  intro j
  show (slabInsert s.chans.length s.slab).count (some j) ≤ 1
  rw [count_slabInsert]
  by_cases h : j = s.chans.length
  · subst h
    have h0 : s.slab.count (some s.chans.length) = 0 :=
      List.count_eq_zero.mpr (not_mem_slab_of_alive s ha)
    simp [h0]
  · simp [h]
    exact hi j

/-- The clone created by `cloneS` is registered in the slab and owns the
fresh empty channel. -/
theorem cloneS_chan_spec (s : SIState α) :
    some (cloneS s).1.chan ∈ (cloneS s).2.slab ∧
    (cloneS s).2.chans[(cloneS s).1.chan]?
      = some ⟨[], [], (producedL s).length, true⟩ := by
  constructor
  · exact (mem_slabInsert _ _ s.slab).mpr (Or.inl rfl)
  · exact List.getElem?_concat_length _ _

/-- C1 (amended): a clone starts with an empty channel and observes only
the values produced after its creation; draining a clone of a finite
source `l` yields `l` minus the values already pulled. -/
theorem c1_clone_drains_remaining (l : List α) (s : SIState α)
    (hsrc : s.src = srcOf l) (hp : s.panicked = false)
    (ha : SlotsAlive s.slab s.chans) (hi : SlotsInj s.slab) :
    (takeN (cloneS s).1 (l.length + 1) (cloneS s).2).1 = l.drop s.pulled := by
  obtain ⟨hm, hch⟩ := cloneS_chan_spec s
  have h := drain_general l (l.length + 1) (cloneS s).2 (cloneS s).1 _
      hsrc hp (slotsAlive_cloneS s ha) (slotsInj_cloneS s ha hi) hm hch rfl
  rw [h]
  show (l.drop s.pulled).take (l.length + 1) = l.drop s.pulled
  apply List.take_of_length_le
  rw [List.length_drop]
  omega

theorem nextsN_root_aux (f : Nat → Option α) :
    ∀ (n k : Nat) (h : List α) (b : Nat),
      (nextsN rootCursor n
          { src := f, pulled := k, slab := [some 0],
            chans := [⟨[], h, b, true⟩], panicked := false }).1
        = (List.range' k n).map f := by
  intro n
  induction n with
  | zero => intro k h b; simp [nextsN]
  | succ n ih =>
      intro k h b
      set s : SIState α :=
        { src := f, pulled := k, slab := [some 0],
          chans := [⟨[], h, b, true⟩], panicked := false } with hs
      have hc : s.chans[rootCursor.chan]? = some ⟨[], h, b, true⟩ := rfl
      have hm : some rootCursor.chan ∈ s.slab := List.mem_singleton.mpr rfl
      have h1 : tryRecv rootCursor.chan s = (RecvRes.empty, s) :=
        tryRecv_nil_mem hc rfl hm
      cases hv : f k with
      | none =>
          have hcore : coreNext s =
              { src := f, pulled := k + 1, slab := [some 0],
                chans := [⟨[], h, b, true⟩], panicked := false } :=
            coreNext_none rfl hv
          have h2 : tryRecv rootCursor.chan (coreNext s) = (RecvRes.empty, coreNext s) := by
            rw [hcore]
            exact tryRecv_nil_mem rfl rfl (List.mem_singleton.mpr rfl)
          have hstep : cursorNext rootCursor s = (none, coreNext s) :=
            cursorNext_of_empty_empty h1 h2
          rw [List.range'_succ, nextsN, hstep, hcore]
          rw [ih (k + 1) h b]
          simp [hv]
      | some v =>
          have hsend : sendAll v s.slab s.chans = ([⟨[v], h, b, true⟩], true) := rfl
          have hcore : coreNext s =
              { src := f, pulled := k + 1, slab := [some 0],
                chans := [⟨[v], h, b, true⟩], panicked := false } := by
            rw [coreNext_some rfl hv, hsend]
            rfl
          have h2 : tryRecv rootCursor.chan (coreNext s)
              = (RecvRes.ok v,
                { src := f, pulled := k + 1, slab := [some 0],
                  chans := [⟨[], h ++ [v], b, true⟩], panicked := false }) := by
            rw [hcore]
            exact @tryRecv_pop _ _ _ ⟨[v], h, b, true⟩ v [] rfl rfl
          have hstep : cursorNext rootCursor s
              = (some v,
                { src := f, pulled := k + 1, slab := [some 0],
                  chans := [⟨[], h ++ [v], b, true⟩], panicked := false }) :=
            cursorNext_of_empty_pop h1 h2
          rw [List.range'_succ, nextsN, hstep]
          rw [ih (k + 1) (h ++ [v]) b]
          simp [hv]

/-- C5: with only the root handle (never cloned), the shared iterator is
observationally equivalent to the raw source: the results of the first
`n` calls to `next()` are exactly the first `n` pulls of the un-wrapped
source, for every source and every `n`. -/
theorem c5_root_refines_source (f : Nat → Option α) (n : Nat) :
    (nextsN rootCursor n (initState f)).1 = sourcePulls f n := by
  rw [sourcePulls, List.range_eq_range']
  exact nextsN_root_aux f n 0 [] 0

/-- C3: with the source `1..20` (the integers 1 through 19), a root handle
and a clone taken before any reads each take 10 values; both obtain
`[1, 2, ..., 10]` (the clone reading after the root finished, as in the
crate's `test_iter`). -/
theorem c3_take_ten_each :
    (takeN rootCursor 10 (cloneS (initState (srcOf (List.range' 1 19)))).2).1
        = [1, 2, 3, 4, 5, 6, 7, 8, 9, 10] ∧
    (takeN (cloneS (initState (srcOf (List.range' 1 19)))).1 10
        (takeN rootCursor 10 (cloneS (initState (srcOf (List.range' 1 19)))).2).2).1
        = [1, 2, 3, 4, 5, 6, 7, 8, 9, 10] :=
  ⟨by decide, by decide⟩

/-- C1 counterexample: with source `[1, 2]`, the root handle first reads
one value; a clone created at that point drains to `[2]`, not to the full
sequence `[1, 2]` — a clone does not replay the sequence from position 0. -/
theorem c1_counterexample :
    (cursorNext rootCursor (initState (srcOf [1, 2]))).1 = some 1 ∧
    (takeN (cloneS (cursorNext rootCursor (initState (srcOf [1, 2]))).2).1 3
        (cloneS (cursorNext rootCursor (initState (srcOf [1, 2]))).2).2).1 = [2] ∧
    ([2] : List Nat) ≠ [1, 2] :=
  ⟨by decide, by decide, by decide⟩

/-- C2 counterexample: with the empty source, a single `next()` call pulls
the wrapped iterator once while zero positions are produced, so the total
number of pulls is not equal to the number of positions produced. -/
theorem c2_counterexample :
    (cursorNext rootCursor (initState (srcOf ([] : List Nat)))).2.pulled = 1 ∧
    (producedL (cursorNext rootCursor (initState (srcOf ([] : List Nat)))).2).length = 0 ∧
    (1 : Nat) ≠ 0 :=
  ⟨by decide, by decide, by decide⟩

/-- Witness for the amended C1 theorem at a concrete input: source
`[1, 2]`, one value already read by the root; the clone drains to
`[1, 2].drop 1 = [2]`. -/
theorem c1_witness :
    (takeN (cloneS (cursorNext rootCursor (initState (srcOf [1, 2]))).2).1 3
        (cloneS (cursorNext rootCursor (initState (srcOf [1, 2]))).2).2).1
      = [1, 2].drop (cursorNext rootCursor (initState (srcOf [1, 2]))).2.pulled := by
  have hslab : (cursorNext rootCursor (initState (srcOf [1, 2]))).2.slab
      = [some 0] := by decide
  have hchans : (cursorNext rootCursor (initState (srcOf [1, 2]))).2.chans
      = [⟨[], [1], 0, true⟩] := by decide
  have ha : SlotsAlive (cursorNext rootCursor (initState (srcOf [1, 2]))).2.slab
      (cursorNext rootCursor (initState (srcOf [1, 2]))).2.chans := by
    rw [hslab, hchans]
    intro j hj
    have hj0 : j = 0 := by simpa using hj
    subst hj0
    exact ⟨⟨[], [1], 0, true⟩, rfl, rfl⟩
  have hi : SlotsInj (cursorNext rootCursor (initState (srcOf [1, 2]))).2.slab := by
    rw [hslab]
    intro j
    rw [List.count_cons, List.count_nil]
    split <;> omega
  exact c1_clone_drains_remaining [1, 2] _ rfl (by decide) ha hi

/-- Explicit list-prefix relation. -/
def IsPre (l₁ l₂ : List α) : Prop := ∃ t, l₁ ++ t = l₂

theorem IsPre_append (l t : List α) : IsPre l (l ++ t) := ⟨t, rfl⟩

theorem IsPre_rfl (l : List α) : IsPre l l := ⟨[], List.append_nil l⟩

theorem IsPre_trans {l₁ l₂ l₃ : List α} (h1 : IsPre l₁ l₂) (h2 : IsPre l₂ l₃) :
    IsPre l₁ l₃ := by
  obtain ⟨t1, ht1⟩ := h1
  obtain ⟨t2, ht2⟩ := h2
  exact ⟨t1 ++ t2, by rw [← List.append_assoc, ht1, ht2]⟩

theorem IsPre_eq_take {l₁ l₂ : List α} (h : IsPre l₁ l₂) :
    l₁ = l₂.take l₁.length := by
  obtain ⟨t, ht⟩ := h
  rw [← ht, List.take_left]

theorem IsPre_take (n : Nat) (l : List α) : IsPre (l.take n) l :=
  ⟨l.drop n, List.take_append_drop n l⟩

theorem mem_of_getElem_eq_some {l : List α} {i : Nat} {a : α}
    (h : l[i]? = some a) : a ∈ l := by
  obtain ⟨hlt, hv⟩ := List.getElem?_eq_some.mp h
  rw [← hv]
  exact List.getElem_mem hlt

theorem not_mem_set_none_of_count_le_one {j : Nat} :
    ∀ (sl : List (Option Nat)) (i : Nat), sl[i]? = some (some j) →
      sl.count (some j) ≤ 1 → some j ∉ sl.set i none := by
  intro sl
  induction sl with
  | nil => intro i h; simp at h
  | cons o rest ih =>
      intro i h hcnt hmem
      cases i with
      | zero =>
          have ho : o = some j := by
            simp at h
            exact h
          subst ho
          rw [List.count_cons] at hcnt
          simp at hcnt
          have hmem' : some j ∈ rest := by
            simpa using hmem
          have : 1 ≤ rest.count (some j) := List.count_pos_iff.mpr hmem'
          omega
      | succ i =>
          have h' : rest[i]? = some (some j) := by simpa using h
          have hmemr : some j ∈ rest := mem_of_getElem_eq_some h'
          have hcr : 1 ≤ rest.count (some j) := List.count_pos_iff.mpr hmemr
          rw [List.count_cons] at hcnt
          have hcnt' : rest.count (some j) ≤ 1 := by omega
          have hset : (o :: rest).set (i + 1) none = o :: rest.set i none := rfl
          rw [hset] at hmem
          rcases List.mem_cons.mp hmem with hh | hh
          · subst hh
            simp at hcnt
            omega
          · exact ih i h' hcnt' hh

theorem count_set_none_le (j : Nat) :
    ∀ (sl : List (Option Nat)) (i : Nat),
      (sl.set i none).count (some j) ≤ sl.count (some j) := by
  intro sl
  induction sl with
  | nil => intro i; simp
  | cons o rest ih =>
      intro i
      cases i with
      | zero =>
          rw [show (o :: rest).set 0 none = none :: rest from rfl]
          rw [List.count_cons, List.count_cons]
          have : ((none : Option Nat) == some j) = false := rfl
          rw [this]
          simp
      | succ i =>
          rw [show (o :: rest).set (i + 1) none = o :: rest.set i none from rfl]
          rw [List.count_cons, List.count_cons]
          have := ih i
          omega

theorem filterMap_range_succ (f : Nat → Option α) (n : Nat) :
    (List.range (n + 1)).filterMap f
      = (List.range n).filterMap f ++ (f n).toList := by
  rw [List.range_succ, List.filterMap_append]
  cases h : f n <;> simp [h]

/-- The single global invariant of all reachable states. -/
structure Inv (s : SIState α) : Prop where
  npan : s.panicked = false
  alive : SlotsAlive s.slab s.chans
  inj : SlotsInj s.slab
  hbase : ∀ (j : Nat) (ch : Chan α), s.chans[j]? = some ch →
            ch.base ≤ (producedL s).length
  hpre : ∀ (j : Nat) (ch : Chan α), s.chans[j]? = some ch →
           IsPre (ch.hist ++ ch.buf) ((producedL s).drop ch.base)
  heq : ∀ (j : Nat) (ch : Chan α), s.chans[j]? = some ch → some j ∈ s.slab →
          ch.hist ++ ch.buf = (producedL s).drop ch.base

theorem pushC_base (v : α) (ch : Chan α) : (pushC v ch).base = ch.base := rfl

theorem pushC_hist (v : α) (ch : Chan α) : (pushC v ch).hist = ch.hist := rfl

theorem pushC_buf (v : α) (ch : Chan α) : (pushC v ch).buf = ch.buf ++ [v] := rfl

theorem pushC_recvAlive (v : α) (ch : Chan α) :
    (pushC v ch).recvAlive = ch.recvAlive := rfl

theorem inv_coreNext {s : SIState α} (h : Inv s) : Inv (coreNext s) := by
  cases hv : s.src s.pulled with
  | none =>
      rw [coreNext_none h.npan hv]
      have hpl : producedL
          { s with pulled := s.pulled + 1 } = producedL s := by
        show (List.range (s.pulled + 1)).filterMap s.src = _
        rw [filterMap_range_succ, hv]
        simp [producedL]
      constructor
      · exact h.npan
      · exact h.alive
      · exact h.inj
      · intro j ch hch
        rw [hpl]
        exact h.hbase j ch hch
      · intro j ch hch
        rw [hpl]
        exact h.hpre j ch hch
      · intro j ch hch hm
        rw [hpl]
        exact h.heq j ch hch hm
  | some v =>
      have hchar := sendAll_char v s.slab s.chans h.alive h.inj
      rw [coreNext_some h.npan hv]
      have hpl : producedL
          { s with
              pulled := s.pulled + 1,
              chans := (sendAll v s.slab s.chans).1,
              panicked := !(sendAll v s.slab s.chans).2 } = producedL s ++ [v] := by
        show (List.range (s.pulled + 1)).filterMap s.src = _
        rw [filterMap_range_succ, hv]
        rfl
      have hget : ∀ (j : Nat) (ch' : Chan α),
          (sendAll v s.slab s.chans).1[j]? = some ch' →
          (some j ∈ s.slab ∧ ∃ ch, s.chans[j]? = some ch ∧ ch' = pushC v ch) ∨
          (some j ∉ s.slab ∧ s.chans[j]? = some ch') := by
        intro j ch' hch'
        rw [hchar.2 j] at hch'
        by_cases hm : some j ∈ s.slab
        · rw [if_pos hm] at hch'
          cases hc : s.chans[j]? with
          | none => rw [hc] at hch'; simp at hch'
          | some ch =>
              rw [hc] at hch'
              refine Or.inl ⟨hm, ch, rfl, ?_⟩
              simp at hch'
              exact hch'.symm
        · rw [if_neg hm] at hch'
          exact Or.inr ⟨hm, hch'⟩
      constructor
      · show (!(sendAll v s.slab s.chans).2) = false
        rw [hchar.1]
        rfl
      · intro j hj
        obtain ⟨ch, hch, hal⟩ := h.alive j hj
        refine ⟨pushC v ch, ?_, hal⟩
        show (sendAll v s.slab s.chans).1[j]? = some (pushC v ch)
        rw [hchar.2 j, if_pos hj, hch]
        rfl
      · exact h.inj
      · intro j ch' hch'
        rw [hpl]
        rcases hget j ch' hch' with ⟨_, ch, hc, he⟩ | ⟨_, hc⟩
        · subst he
          have := h.hbase j ch hc
          show ch.base ≤ (producedL s ++ [v]).length
          rw [List.length_append]
          simp
          omega
        · have := h.hbase j ch' hc
          rw [List.length_append]
          simp
          omega
      · intro j ch' hch'
        rw [hpl]
        rcases hget j ch' hch' with ⟨hm, ch, hc, he⟩ | ⟨_, hc⟩
        · subst he
          have heqs := h.heq j ch hc hm
          have hb := h.hbase j ch hc
          rw [pushC_base, pushC_hist, pushC_buf]
          rw [← List.append_assoc, heqs]
          rw [List.drop_append_of_le_length hb]
          exact IsPre_rfl _
        · have hps := h.hpre j ch' hc
          have hb := h.hbase j ch' hc
          rw [List.drop_append_of_le_length hb]
          exact IsPre_trans hps (IsPre_append _ _)
      · intro j ch' hch' hm
        rw [hpl]
        rcases hget j ch' hch' with ⟨hm', ch, hc, he⟩ | ⟨hnm, hc⟩
        · subst he
          have heqs := h.heq j ch hc hm'
          have hb := h.hbase j ch hc
          rw [pushC_base, pushC_hist, pushC_buf]
          rw [← List.append_assoc, heqs]
          rw [List.drop_append_of_le_length hb]
        · exact absurd hm hnm

theorem inv_tryRecv {s : SIState α} (j : Nat) (h : Inv s) : Inv (tryRecv j s).2 := by
  cases hc : s.chans[j]? with
  | none => rw [tryRecv_nochan hc]; exact h
  | some ch =>
      cases hb : ch.buf with
      | nil =>
          by_cases hm : some j ∈ s.slab
          · rw [tryRecv_nil_mem hc hb hm]; exact h
          · rw [tryRecv_nil_nomem hc hb hm]; exact h
      | cons v rest =>
          rw [tryRecv_pop hc hb]
          have hjlt : j < s.chans.length := (List.getElem?_eq_some.mp hc).1
          set ch2 : Chan α :=
            { ch with buf := rest, hist := ch.hist ++ [v] } with hch2
          have hpl : producedL { s with chans := s.chans.set j ch2 }
              = producedL s := rfl
          have hgetj : (s.chans.set j ch2)[j]? = some ch2 := by
            rw [List.getElem?_set, if_pos rfl, if_pos hjlt]
          have hsame : ch2.hist ++ ch2.buf = ch.hist ++ ch.buf := by
            show (ch.hist ++ [v]) ++ rest = ch.hist ++ ch.buf
            rw [hb, List.append_assoc]
            rfl
          constructor
          · exact h.npan
          · intro k hk
            obtain ⟨chk, hchk, halk⟩ := h.alive k hk
            by_cases hkj : k = j
            · subst hkj
              refine ⟨ch2, hgetj, ?_⟩
              show ch.recvAlive = true
              rw [hc] at hchk
              injection hchk with hh
              rw [← hh] at halk
              exact halk
            · refine ⟨chk, ?_, halk⟩
              show (s.chans.set j ch2)[k]? = some chk
              rw [List.getElem?_set_ne (fun hh => hkj hh.symm), hchk]
          · exact h.inj
          · intro k chk hchk
            rw [hpl]
            by_cases hkj : k = j
            · subst hkj
              rw [hgetj] at hchk
              injection hchk with hh
              rw [← hh]
              exact h.hbase k ch hc
            · rw [List.getElem?_set_ne (fun hh => hkj hh.symm)] at hchk
              exact h.hbase k chk hchk
          · intro k chk hchk
            rw [hpl]
            by_cases hkj : k = j
            · subst hkj
              rw [hgetj] at hchk
              injection hchk with hh
              rw [← hh]
              rw [hsame]
              exact h.hpre k ch hc
            · rw [List.getElem?_set_ne (fun hh => hkj hh.symm)] at hchk
              exact h.hpre k chk hchk
          · intro k chk hchk hm
            rw [hpl]
            by_cases hkj : k = j
            · subst hkj
              rw [hgetj] at hchk
              injection hchk with hh
              rw [← hh]
              rw [hsame]
              exact h.heq k ch hc hm
            · rw [List.getElem?_set_ne (fun hh => hkj hh.symm)] at hchk
              exact h.heq k chk hchk hm

theorem getElem_append_singleton_cases {l : List β} {x ch : β} {j : Nat}
    (h : (l ++ [x])[j]? = some ch) :
    (j < l.length ∧ l[j]? = some ch) ∨ (j = l.length ∧ ch = x) := by
  by_cases hj : j < l.length
  · left
    refine ⟨hj, ?_⟩
    rw [← @List.getElem?_append_left _ l [x] j hj]
    exact h
  · right
    have hj' : l.length ≤ j := Nat.le_of_not_lt hj
    rw [List.getElem?_append_right hj'] at h
    cases hd : j - l.length with
    | zero =>
        rw [hd] at h
        refine ⟨by omega, ?_⟩
        simp at h
        exact h.symm
    | succ m =>
        rw [hd] at h
        simp at h

theorem inv_cloneS {s : SIState α} (h : Inv s) : Inv (cloneS s).2 := by
  have hpl : producedL (cloneS s).2 = producedL s := rfl
  have hmem : ∀ (j : Nat), some j ∈ (cloneS s).2.slab →
      j = s.chans.length ∨ some j ∈ s.slab := by
    intro j hj
    exact (mem_slabInsert s.chans.length j s.slab).mp hj
  have hget : ∀ (j : Nat) (ch : Chan α), (cloneS s).2.chans[j]? = some ch →
      (j < s.chans.length ∧ s.chans[j]? = some ch) ∨
      (j = s.chans.length ∧ ch = ⟨[], [], (producedL s).length, true⟩) := by
    intro j ch hch
    exact getElem_append_singleton_cases hch
  constructor
  · exact h.npan
  · exact slotsAlive_cloneS s h.alive
  · exact slotsInj_cloneS s h.alive h.inj
  · intro j ch hch
    rw [hpl]
    rcases hget j ch hch with ⟨_, hc⟩ | ⟨_, he⟩
    · exact h.hbase j ch hc
    · rw [he]
  · intro j ch hch
    rw [hpl]
    rcases hget j ch hch with ⟨_, hc⟩ | ⟨_, he⟩
    · exact h.hpre j ch hc
    · rw [he]
      show IsPre ([] ++ []) ((producedL s).drop (producedL s).length)
      rw [List.drop_length]
      exact IsPre_rfl _
  · intro j ch hch hm
    rw [hpl]
    rcases hget j ch hch with ⟨hlt, hc⟩ | ⟨_, he⟩
    · have hms : some j ∈ s.slab := by
        rcases hmem j hm with hh | hh
        · omega
        · exact hh
      exact h.heq j ch hc hms
    · rw [he]
      show [] ++ [] = (producedL s).drop (producedL s).length
      rw [List.drop_length]
      rfl

theorem inv_dropC {s : SIState α} {i j : Nat} (h : Inv s)
    (hij : s.slab[i]? = some (some j)) : Inv (dropC ⟨i, j⟩ s) := by
  obtain ⟨ch0, hch0, hal0⟩ := h.alive j (mem_of_getElem_eq_some hij)
  have hkill : killChan j s.chans = s.chans.set j { ch0 with recvAlive := false } := by
    rw [killChan, hch0]
  have hjlt : j < s.chans.length := (List.getElem?_eq_some.mp hch0).1
  have hpl : producedL (dropC ⟨i, j⟩ s) = producedL s := rfl
  have hmemk : ∀ (k : Nat), some k ∈ (dropC ⟨i, j⟩ s).slab →
      some k ∈ s.slab ∧ k ≠ j := by
    intro k hk
    have hks : some k ∈ s.slab := by
      rcases List.mem_or_eq_of_mem_set hk with hh | hh
      · exact hh
      · exact absurd hh (by simp)
    refine ⟨hks, ?_⟩
    intro he
    subst he
    exact not_mem_set_none_of_count_le_one s.slab i hij (h.inj k) hk
  have hget : ∀ (k : Nat) (ch : Chan α), (dropC ⟨i, j⟩ s).chans[k]? = some ch →
      (k = j ∧ ch = { ch0 with recvAlive := false }) ∨
      (k ≠ j ∧ s.chans[k]? = some ch) := by
    intro k ch hch
    have hch2 : (killChan j s.chans)[k]? = some ch := hch
    rw [hkill] at hch2
    by_cases hkj : k = j
    · subst hkj
      rw [List.getElem?_set, if_pos rfl, if_pos hjlt] at hch2
      left
      refine ⟨rfl, ?_⟩
      injection hch2 with hh
      exact hh.symm
    · rw [List.getElem?_set_ne (fun hh => hkj hh.symm)] at hch2
      exact Or.inr ⟨hkj, hch2⟩
  constructor
  · exact h.npan
  · intro k hk
    obtain ⟨hks, hkj⟩ := hmemk k hk
    obtain ⟨chk, hchk, halk⟩ := h.alive k hks
    refine ⟨chk, ?_, halk⟩
    show (killChan j s.chans)[k]? = some chk
    rw [hkill, List.getElem?_set_ne (fun hh => hkj hh.symm), hchk]
  · intro k
    show (s.slab.set i none).count (some k) ≤ 1
    exact le_trans (count_set_none_le k s.slab i) (h.inj k)
  · intro k ch hch
    rw [hpl]
    rcases hget k ch hch with ⟨hkj, he⟩ | ⟨_, hc⟩
    · subst hkj
      rw [he]
      exact h.hbase k ch0 hch0
    · exact h.hbase k ch hc
  · intro k ch hch
    rw [hpl]
    rcases hget k ch hch with ⟨hkj, he⟩ | ⟨_, hc⟩
    · subst hkj
      rw [he]
      exact h.hpre k ch0 hch0
    · exact h.hpre k ch hc
  · intro k ch hch hm
    rw [hpl]
    obtain ⟨hks, hkj⟩ := hmemk k hm
    rcases hget k ch hch with ⟨hkj', _⟩ | ⟨_, hc⟩
    · exact absurd hkj' hkj
    · exact h.heq k ch hc hks

theorem inv_stepA (a : Act) {s : SIState α} (h : Inv s) : Inv (stepA a s) := by
  cases a with
  | pull => exact inv_coreNext h
  | recv j => exact inv_tryRecv j h
  | clone => exact inv_cloneS h
  | drop i =>
      show Inv (match s.slab[i]? with
        | some (some j) => dropC ⟨i, j⟩ s
        | _ => s)
      cases hi : s.slab[i]? with
      | none => exact h
      | some o =>
          cases o with
          | none => exact h
          | some j => exact inv_dropC h hi

theorem inv_steps (acts : List Act) {s : SIState α} (h : Inv s) :
    Inv (steps acts s) := by
  induction acts generalizing s with
  | nil => exact h
  | cons a rest ih =>
      show Inv (steps rest (stepA a s))
      exact ih (inv_stepA a h)

theorem inv_init (f : Nat → Option α) : Inv (initState f) := by
  constructor
  · rfl
  · intro j hj
    have hj0 : j = 0 := by simpa [initState] using hj
    subst hj0
    exact ⟨⟨[], [], 0, true⟩, rfl, rfl⟩
  · intro j
    show List.count (some j) [some 0] ≤ 1
    rw [List.count_cons, List.count_nil]
    split <;> omega
  · intro j ch hch
    rcases getElem_append_singleton_cases (l := []) (by simpa using hch) with
      ⟨hlt, _⟩ | ⟨_, he⟩
    · simp at hlt
    · rw [he]
      show (0 : Nat) ≤ _
      omega
  · intro j ch hch
    have hj0 : j = 0 := by
      have := (List.getElem?_eq_some.mp hch).1
      simpa [initState] using this
    subst hj0
    have he : ch = ⟨[], [], 0, true⟩ := by
      have : (initState f (α := α)).chans[0]? = some ⟨[], [], 0, true⟩ := rfl
      rw [this] at hch
      injection hch with hh
      exact hh.symm
    rw [he]
    exact IsPre_rfl _
  · intro j ch hch _
    have hj0 : j = 0 := by
      have := (List.getElem?_eq_some.mp hch).1
      simpa [initState] using this
    subst hj0
    have he : ch = ⟨[], [], 0, true⟩ := by
      have : (initState f (α := α)).chans[0]? = some ⟨[], [], 0, true⟩ := rfl
      rw [this] at hch
      injection hch with hh
      exact hh.symm
    rw [he]
    rfl

theorem stepA_src (a : Act) (s : SIState α) : (stepA a s).src = s.src := by
  cases a with
  | pull =>
      rw [stepA]
      rw [coreNext]
      split
      · rfl
      · split <;> rfl
  | recv j =>
      rw [stepA]
      rw [tryRecv]
      split
      · split
        · rfl
        · split <;> rfl
      · rfl
  | clone => rfl
  | drop i =>
      rw [stepA]
      split
      · rfl
      · rfl

theorem steps_src (acts : List Act) (s : SIState α) :
    (steps acts s).src = s.src := by
  induction acts generalizing s with
  | nil => rfl
  | cons a rest ih =>
      show (steps rest (stepA a s)).src = s.src
      rw [ih, stepA_src]

/-- C9: along every trace of atomic actions starting from a fresh
`share()`, every broadcast performed by `SharedIterCore::next` succeeds —
the `SendError` branch, and hence the `expect("")` panic, is unreachable,
because `Drop` removes the handle's sender from the slab before its
receiver is destroyed. -/
theorem c9_no_send_panic (f : Nat → Option α) (acts : List Act) :
    (steps acts (initState f)).panicked = false :=
  (inv_steps acts (inv_init f)).npan

/-- C2 (amended): in every reachable state the number of positions
produced equals the minimum of the pull count and the source length: each
pull made while the source is unexhausted produces exactly one new
position (one pull per position, none repeated), but `next()` calls that
find an empty buffer after the source is exhausted keep pulling it, so
the total pull count can exceed the number of positions produced. -/
theorem c2_pull_count (l : List α) (acts : List Act) :
    (producedL (steps acts (initState (srcOf l)))).length
      = min (steps acts (initState (srcOf l))).pulled l.length := by
  have hsrc : (steps acts (initState (srcOf l))).src = srcOf l := by
    rw [steps_src]
    rfl
  rw [producedL_srcOf l _ hsrc, List.length_take]

/-- C7: in every reachable state, a live handle whose consumed count is
within `W` of the number of produced positions has at most `W` values
buffered in its channel. -/
theorem c7_buffer_bounded (f : Nat → Option α) (acts : List Act) (W j : Nat)
    (ch : Chan α)
    (hch : (steps acts (initState f)).chans[j]? = some ch)
    (hm : some j ∈ (steps acts (initState f)).slab)
    (hW : (producedL (steps acts (initState f))).length - ch.hist.length ≤ W) :
    ch.buf.length ≤ W := by
  have hinv := inv_steps acts (inv_init f)
  have heq2 := hinv.heq j ch hch hm
  have hb := hinv.hbase j ch hch
  have hlen : ch.hist.length + ch.buf.length
      = (producedL (steps acts (initState f))).length - ch.base := by
    have h3 := congrArg List.length heq2
    rw [List.length_append, List.length_drop] at h3
    exact h3
  omega

/-- Witness for C7: source `[1, 2, 3]`, one clone, one pull, one receive
by the root; the clone's channel holds one buffered value, within the
window `W = 1`. -/
theorem c7_witness :
    (steps [Act.clone, Act.pull, Act.recv 0] (initState (srcOf [1, 2, 3]))).chans[1]?
        = some ⟨[1], [], 0, true⟩ ∧
    (⟨[1], [], 0, true⟩ : Chan Nat).buf.length ≤ 1 :=
  ⟨by decide,
   c7_buffer_bounded (srcOf [1, 2, 3]) [Act.clone, Act.pull, Act.recv 0] 1 1
     ⟨[1], [], 0, true⟩ (by decide) (by decide) (by decide)⟩

theorem takeN_root_from_init (l : List α) (K : Nat) :
    (takeN rootCursor K (initState (srcOf l))).1 = l.take K := by
  have hmem : some rootCursor.chan ∈ (initState (srcOf l)).slab :=
    List.mem_singleton.mpr rfl
  have h := drain_general l K (initState (srcOf l)) rootCursor ⟨[], [], 0, true⟩
      rfl rfl (inv_init (srcOf l)).alive (inv_init (srcOf l)).inj hmem rfl rfl
  rw [h]
  show (l.drop 0).take K = l.take K
  rw [List.drop_zero]

/-- C8: along every trace of atomic actions — hence under every thread
interleaving, since all shared mutation happens in these atomic steps —
every handle whose channel was registered before any value was produced
(ghost `base = 0`: the root and every clone taken before any reads)
observes exactly the values a single-threaded drain of the same length
from a fresh `share()` of the same source observes. -/
theorem c8_concurrent_consistency (l : List α) (acts : List Act) (j : Nat)
    (ch : Chan α)
    (hch : (steps acts (initState (srcOf l))).chans[j]? = some ch)
    (hb0 : ch.base = 0) :
    ch.hist = (takeN rootCursor ch.hist.length (initState (srcOf l))).1 := by
  have hinv := inv_steps acts (inv_init (srcOf l))
  have hpre := hinv.hpre j ch hch
  rw [hb0, List.drop_zero] at hpre
  have hsrc : (steps acts (initState (srcOf l))).src = srcOf l := by
    rw [steps_src]
    rfl
  rw [producedL_srcOf l _ hsrc] at hpre
  have h1 : IsPre ch.hist l :=
    IsPre_trans (IsPre_trans (IsPre_append ch.hist ch.buf) hpre) (IsPre_take _ l)
  rw [takeN_root_from_init]
  exact IsPre_eq_take h1

/-- Witness for C8: source `[7, 8, 9]`, a clone plus interleaved pulls and
receives; the clone's observations `[7, 8]` equal the reference
single-threaded drain of length 2. -/
theorem c8_witness :
    (steps [Act.clone, Act.pull, Act.recv 1, Act.pull, Act.recv 1]
        (initState (srcOf [7, 8, 9]))).chans[1]? = some ⟨[], [7, 8], 0, true⟩ ∧
    ([7, 8] : List Nat)
        = (takeN rootCursor ([7, 8] : List Nat).length (initState (srcOf [7, 8, 9]))).1 :=
  ⟨by decide,
   c8_concurrent_consistency [7, 8, 9]
     [Act.clone, Act.pull, Act.recv 1, Act.pull, Act.recv 1] 1
     ⟨[], [7, 8], 0, true⟩ (by decide) rfl⟩

/-- A fused pull sequence: once it yields end-of-sequence it keeps doing so. -/
def Fused (f : Nat → Option α) : Prop := ∀ n, f n = none → f (n + 1) = none

/-- Every pull from the current position on yields end-of-sequence. -/
def SrcDone (s : SIState α) : Prop := ∀ m, s.pulled ≤ m → s.src m = none

/-- A handle that has reported end-of-sequence: its channel's buffer is
empty and can never be refilled (the core is panicked, or the source is
exhausted, or the handle's sender is gone). -/
def DeadC (c : Cursor) (s : SIState α) : Prop :=
  (∃ ch, s.chans[c.chan]? = some ch ∧ ch.buf = []) ∧
  (s.panicked = true ∨ SrcDone s ∨ (some c.chan) ∉ s.slab)

theorem fused_ge {f : Nat → Option α} (hf : Fused f) {k : Nat}
    (hk : f k = none) : ∀ m, k ≤ m → f m = none := by
  intro m hm
  induction m, hm using Nat.le_induction with
  | base => exact hk
  | succ m _ ih => exact hf m ih

theorem fused_srcOf (l : List α) : Fused (srcOf l) := by
  intro n hn
  have h1 : l.length ≤ n := List.getElem?_eq_none_iff.mp hn
  exact List.getElem?_eq_none (by omega)

theorem sendAll_nil (v : α) (chans : List (Chan α)) :
    sendAll v [] chans = (chans, true) := rfl

theorem sendAll_cons_none (v : α) (rest : List (Option Nat))
    (chans : List (Chan α)) :
    sendAll v (none :: rest) chans = sendAll v rest chans := rfl

theorem sendAll_cons_alive {chans : List (Chan α)} {k : Nat} {chk : Chan α}
    (v : α) (rest : List (Option Nat))
    (hc : chans[k]? = some chk) (hal : chk.recvAlive = true) :
    sendAll v (some k :: rest) chans
      = sendAll v rest (chans.set k (pushC v chk)) := by
  simp [sendAll, hc, hal]

theorem sendAll_cons_dead {chans : List (Chan α)} {k : Nat} {chk : Chan α}
    (v : α) (rest : List (Option Nat))
    (hc : chans[k]? = some chk) (hal : chk.recvAlive = false) :
    sendAll v (some k :: rest) chans = (chans, false) := by
  simp [sendAll, hc, hal]

theorem sendAll_cons_nochan {chans : List (Chan α)} {k : Nat}
    (v : α) (rest : List (Option Nat)) (hc : chans[k]? = none) :
    sendAll v (some k :: rest) chans = (chans, false) := by
  simp [sendAll, hc]

theorem sendAll_length (v : α) :
    ∀ (sl : List (Option Nat)) (chans : List (Chan α)),
      (sendAll v sl chans).1.length = chans.length := by
  intro sl
  induction sl with
  | nil => intro chans; rfl
  | cons o rest ih =>
      intro chans
      cases o with
      | none => exact ih chans
      | some k =>
          cases hc : chans[k]? with
          | none => rw [sendAll_cons_nochan v rest hc]
          | some chk =>
              cases hal : chk.recvAlive with
              | false => rw [sendAll_cons_dead v rest hc hal]
              | true =>
                  rw [sendAll_cons_alive v rest hc hal]
                  rw [ih (chans.set k (pushC v chk))]
                  exact List.length_set chans k _

theorem sendAll_not_mem (v : α) :
    ∀ (sl : List (Option Nat)) (chans : List (Chan α)) (j : Nat),
      some j ∉ sl → (sendAll v sl chans).1[j]? = chans[j]? := by
  intro sl
  induction sl with
  | nil => intro chans j _; rfl
  | cons o rest ih =>
      intro chans j hj
      cases o with
      | none =>
          rw [sendAll_cons_none]
          exact ih chans j (fun hh => hj (List.mem_cons_of_mem _ hh))
      | some k =>
          have hkj : j ≠ k := by
            intro he
            subst he
            exact hj (List.mem_cons_self _ _)
          cases hc : chans[k]? with
          | none => rw [sendAll_cons_nochan v rest hc]
          | some chk =>
              cases hal : chk.recvAlive with
              | false => rw [sendAll_cons_dead v rest hc hal]
              | true =>
                  rw [sendAll_cons_alive v rest hc hal]
                  rw [ih (chans.set k (pushC v chk)) j
                      (fun hh => hj (List.mem_cons_of_mem _ hh))]
                  exact List.getElem?_set_ne (fun hh => hkj hh.symm)

theorem sendAll_buf_suffix (v : α) :
    ∀ (sl : List (Option Nat)) (chans : List (Chan α)) (j : Nat) (ch ch' : Chan α),
      chans[j]? = some ch → (sendAll v sl chans).1[j]? = some ch' →
      ∃ t, ch'.buf = ch.buf ++ t := by
  intro sl
  induction sl with
  | nil =>
      intro chans j ch ch' hc hc'
      rw [sendAll_nil] at hc'
      rw [hc] at hc'
      injection hc' with hh
      exact ⟨[], by rw [← hh, List.append_nil]⟩
  | cons o rest ih =>
      intro chans j ch ch' hc hc'
      cases o with
      | none =>
          rw [sendAll_cons_none] at hc'
          exact ih chans j ch ch' hc hc'
      | some k =>
          cases hck : chans[k]? with
          | none =>
              rw [sendAll_cons_nochan v rest hck] at hc'
              rw [hc] at hc'
              injection hc' with hh
              exact ⟨[], by rw [← hh, List.append_nil]⟩
          | some chk =>
              cases hal : chk.recvAlive with
              | false =>
                  rw [sendAll_cons_dead v rest hck hal] at hc'
                  rw [hc] at hc'
                  injection hc' with hh
                  exact ⟨[], by rw [← hh, List.append_nil]⟩
              | true =>
                  rw [sendAll_cons_alive v rest hck hal] at hc'
                  by_cases hjk : j = k
                  · subst hjk
                    rw [hc] at hck
                    injection hck with hh
                    subst hh
                    have hset : (chans.set j (pushC v ch))[j]? = some (pushC v ch) := by
                      rw [List.getElem?_set, if_pos rfl,
                          if_pos (List.getElem?_eq_some.mp hc).1]
                    obtain ⟨t, ht⟩ :=
                      ih (chans.set j (pushC v ch)) j (pushC v ch) ch' hset hc'
                    refine ⟨[v] ++ t, ?_⟩
                    rw [ht, pushC_buf, List.append_assoc]
                  · have hset : (chans.set k (pushC v chk))[j]? = some ch :=
                      (List.getElem?_set_ne (fun hh => hjk hh.symm)).trans hc
                    exact ih (chans.set k (pushC v chk)) j ch ch' hset hc'

theorem sendAll_mem_pushed (v : α) :
    ∀ (sl : List (Option Nat)) (chans : List (Chan α)) (j : Nat) (ch ch' : Chan α),
      (sendAll v sl chans).2 = true → some j ∈ sl →
      chans[j]? = some ch → (sendAll v sl chans).1[j]? = some ch' →
      ∃ t, ch'.buf = ch.buf ++ [v] ++ t := by
  intro sl
  induction sl with
  | nil =>
      intro chans j ch ch' _ hm
      simp at hm
  | cons o rest ih =>
      intro chans j ch ch' hok hm hc hc'
      cases o with
      | none =>
          rw [sendAll_cons_none] at hok hc'
          have hm' : some j ∈ rest := by
            rcases List.mem_cons.mp hm with hh | hh
            · exact absurd hh (by simp)
            · exact hh
          exact ih chans j ch ch' hok hm' hc hc'
      | some k =>
          cases hck : chans[k]? with
          | none =>
              rw [sendAll_cons_nochan v rest hck] at hok
              simp at hok
          | some chk =>
              cases hal : chk.recvAlive with
              | false =>
                  rw [sendAll_cons_dead v rest hck hal] at hok
                  simp at hok
              | true =>
                  rw [sendAll_cons_alive v rest hck hal] at hok hc'
                  by_cases hjk : j = k
                  · subst hjk
                    rw [hc] at hck
                    injection hck with hh
                    subst hh
                    have hset : (chans.set j (pushC v ch))[j]? = some (pushC v ch) := by
                      rw [List.getElem?_set, if_pos rfl,
                          if_pos (List.getElem?_eq_some.mp hc).1]
                    obtain ⟨t, ht⟩ :=
                      sendAll_buf_suffix v rest (chans.set j (pushC v ch)) j
                        (pushC v ch) ch' hset hc'
                    refine ⟨t, ?_⟩
                    rw [ht, pushC_buf]
                  · rcases List.mem_cons.mp hm with hh | hh
                    · exact absurd (Option.some.inj hh) hjk
                    · have hset : (chans.set k (pushC v chk))[j]? = some ch :=
                        (List.getElem?_set_ne (fun hh => hjk hh.symm)).trans hc
                      exact ih (chans.set k (pushC v chk)) j ch ch' hok hh hset hc'

theorem dead_next {s : SIState α} {c : Cursor} (hd : DeadC c s) :
    (cursorNext c s).1 = none := by
  obtain ⟨⟨ch, hc, hb⟩, hdis⟩ := hd
  by_cases hm : some c.chan ∈ s.slab
  · have h1 : tryRecv c.chan s = (RecvRes.empty, s) := tryRecv_nil_mem hc hb hm
    by_cases hp : s.panicked = true
    · have hcore := coreNext_panicked hp
      have h2 : tryRecv c.chan (coreNext s) = (RecvRes.empty, coreNext s) := by
        rw [hcore]
        exact tryRecv_nil_mem hc hb hm
      rw [cursorNext_of_empty_empty h1 h2]
    · have hp' : s.panicked = false := by revert hp; cases s.panicked <;> simp
      rcases hdis with hpT | hsd | hns
      · exact absurd hpT hp
      · have hv := hsd s.pulled (Nat.le_refl _)
        have hcore := coreNext_none hp' hv
        have h2 : tryRecv c.chan (coreNext s) = (RecvRes.empty, coreNext s) := by
          rw [hcore]
          exact tryRecv_nil_mem (s := { s with pulled := s.pulled + 1 }) hc hb hm
        rw [cursorNext_of_empty_empty h1 h2]
      · exact absurd hm hns
  · rw [cursorNext_of_disc (tryRecv_nil_nomem hc hb hm)]

theorem dead_step (a : Act) {s : SIState α} {c : Cursor} (hd : DeadC c s) :
    DeadC c (stepA a s) := by
  obtain ⟨⟨ch, hc, hb⟩, hdis⟩ := hd
  cases a with
  | pull =>
      show DeadC c (coreNext s)
      by_cases hp : s.panicked = true
      · rw [coreNext_panicked hp]
        exact ⟨⟨ch, hc, hb⟩, hdis⟩
      · have hp' : s.panicked = false := by revert hp; cases s.panicked <;> simp
        rcases hdis with hpT | hsd | hns
        · exact absurd hpT hp
        · have hv := hsd s.pulled (Nat.le_refl _)
          rw [coreNext_none hp' hv]
          refine ⟨⟨ch, hc, hb⟩, Or.inr (Or.inl ?_)⟩
          intro m hm2
          have hm3 : s.pulled + 1 ≤ m := hm2
          exact hsd m (Nat.le_of_succ_le hm3)
        · cases hv : s.src s.pulled with
          | none =>
              rw [coreNext_none hp' hv]
              exact ⟨⟨ch, hc, hb⟩, Or.inr (Or.inr hns)⟩
          | some v =>
              rw [coreNext_some hp' hv]
              refine ⟨⟨ch, ?_, hb⟩, Or.inr (Or.inr hns)⟩
              show (sendAll v s.slab s.chans).1[c.chan]? = some ch
              rw [sendAll_not_mem v s.slab s.chans c.chan hns]
              exact hc
  | recv j =>
      show DeadC c (tryRecv j s).2
      cases hcj : s.chans[j]? with
      | none =>
          rw [tryRecv_nochan hcj]
          exact ⟨⟨ch, hc, hb⟩, hdis⟩
      | some chj =>
          cases hbj : chj.buf with
          | nil =>
              by_cases hmj : some j ∈ s.slab
              · rw [tryRecv_nil_mem hcj hbj hmj]
                exact ⟨⟨ch, hc, hb⟩, hdis⟩
              · rw [tryRecv_nil_nomem hcj hbj hmj]
                exact ⟨⟨ch, hc, hb⟩, hdis⟩
          | cons w ws =>
              rw [tryRecv_pop hcj hbj]
              by_cases hjc : j = c.chan
              · subst hjc
                rw [hc] at hcj
                injection hcj with hh
                rw [← hh, hb] at hbj
                exact absurd hbj (by simp)
              · refine ⟨⟨ch, ?_, hb⟩, hdis⟩
                show (s.chans.set j _)[c.chan]? = some ch
                rw [List.getElem?_set_ne hjc]
                exact hc
  | clone =>
      show DeadC c (cloneS s).2
      have hlt : c.chan < s.chans.length := (List.getElem?_eq_some.mp hc).1
      refine ⟨⟨ch, ?_, hb⟩, ?_⟩
      · show (s.chans ++ [⟨[], [], (producedL s).length, true⟩])[c.chan]? = some ch
        rw [List.getElem?_append_left hlt]
        exact hc
      · rcases hdis with hpT | hsd | hns
        · exact Or.inl hpT
        · exact Or.inr (Or.inl hsd)
        · refine Or.inr (Or.inr ?_)
          intro hmem
          rcases (mem_slabInsert s.chans.length c.chan s.slab).mp hmem with hh | hh
          · omega
          · exact hns hh
  | drop i =>
      show DeadC c (match s.slab[i]? with
        | some (some j) => dropC ⟨i, j⟩ s
        | _ => s)
      cases hi : s.slab[i]? with
      | none => exact ⟨⟨ch, hc, hb⟩, hdis⟩
      | some o =>
          cases o with
          | none => exact ⟨⟨ch, hc, hb⟩, hdis⟩
          | some j =>
              constructor
              · by_cases hjc : j = c.chan
                · subst hjc
                  refine ⟨{ ch with recvAlive := false }, ?_, hb⟩
                  show (killChan c.chan s.chans)[c.chan]? = some _
                  rw [killChan, hc]
                  rw [List.getElem?_set, if_pos rfl,
                      if_pos (List.getElem?_eq_some.mp hc).1]
                · refine ⟨ch, ?_, hb⟩
                  show (killChan j s.chans)[c.chan]? = some ch
                  rw [killChan]
                  cases hcj : s.chans[j]? with
                  | none => exact hc
                  | some chj =>
                      rw [List.getElem?_set_ne hjc]
                      exact hc
              · rcases hdis with hpT | hsd | hns
                · exact Or.inl hpT
                · exact Or.inr (Or.inl hsd)
                · refine Or.inr (Or.inr ?_)
                  intro hmem
                  rcases List.mem_or_eq_of_mem_set hmem with hh | hh
                  · exact hns hh
                  · exact absurd hh (by simp)

theorem dead_steps (acts : List Act) {s : SIState α} {c : Cursor}
    (hd : DeadC c s) : DeadC c (steps acts s) := by
  induction acts generalizing s with
  | nil => exact hd
  | cons a rest ih =>
      show DeadC c (steps rest (stepA a s))
      exact ih (dead_step a hd)

theorem deadC_of_next_none {s : SIState α} {c : Cursor}
    (hlt : c.chan < s.chans.length) (hf : Fused s.src)
    (hnone : (cursorNext c s).1 = none) :
    DeadC c (cursorNext c s).2 := by
  obtain ⟨ch, hc⟩ : ∃ ch, s.chans[c.chan]? = some ch := by
    cases hx : s.chans[c.chan]? with
    | none =>
        have := List.getElem?_eq_none_iff.mp hx
        omega
    | some ch => exact ⟨ch, rfl⟩
  cases hb : ch.buf with
  | cons v rest =>
      rw [cursorNext_of_pop (tryRecv_pop hc hb)] at hnone
      simp at hnone
  | nil =>
      by_cases hm : some c.chan ∈ s.slab
      · have h1 := tryRecv_nil_mem hc hb hm
        by_cases hp : s.panicked = true
        · have hcore := coreNext_panicked hp
          have h2 : tryRecv c.chan (coreNext s) = (RecvRes.empty, coreNext s) := by
            rw [hcore]
            exact tryRecv_nil_mem hc hb hm
          rw [cursorNext_of_empty_empty h1 h2, hcore]
          exact ⟨⟨ch, hc, hb⟩, Or.inl hp⟩
        · have hp' : s.panicked = false := by revert hp; cases s.panicked <;> simp
          cases hv : s.src s.pulled with
          | none =>
              have hcore := coreNext_none hp' hv
              have h2 : tryRecv c.chan (coreNext s) = (RecvRes.empty, coreNext s) := by
                rw [hcore]
                exact tryRecv_nil_mem (s := { s with pulled := s.pulled + 1 }) hc hb hm
              rw [cursorNext_of_empty_empty h1 h2, hcore]
              refine ⟨⟨ch, hc, hb⟩, Or.inr (Or.inl ?_)⟩
              intro m hm2
              have hm3 : s.pulled + 1 ≤ m := hm2
              exact fused_ge hf hv m (Nat.le_of_succ_le hm3)
          | some v =>
              have hcore := coreNext_some hp' hv
              have hlen : c.chan < (coreNext s).chans.length := by
                rw [hcore]
                show c.chan < (sendAll v s.slab s.chans).1.length
                rw [sendAll_length]
                exact hlt
              obtain ⟨ch', hc'⟩ : ∃ ch', (coreNext s).chans[c.chan]? = some ch' := by
                cases hx : (coreNext s).chans[c.chan]? with
                | none =>
                    have := List.getElem?_eq_none_iff.mp hx
                    omega
                | some ch' => exact ⟨ch', rfl⟩
              cases hb' : ch'.buf with
              | cons w ws =>
                  rw [cursorNext_of_empty_pop h1 (tryRecv_pop hc' hb')] at hnone
                  simp at hnone
              | nil =>
                  have hok : (sendAll v s.slab s.chans).2 = false := by
                    by_contra hok'
                    have hokT : (sendAll v s.slab s.chans).2 = true := by
                      revert hok'
                      cases (sendAll v s.slab s.chans).2 <;> simp
                    have hcg : (sendAll v s.slab s.chans).1[c.chan]? = some ch' := by
                      have h3 := hc'
                      rw [hcore] at h3
                      exact h3
                    obtain ⟨t, ht⟩ := sendAll_mem_pushed v s.slab s.chans c.chan
                        ch ch' hokT hm hc hcg
                    rw [hb'] at ht
                    have h4 := congrArg List.length ht
                    simp at h4
                    omega
                  have hpan : (coreNext s).panicked = true := by
                    rw [hcore]
                    show (!(sendAll v s.slab s.chans).2) = true
                    rw [hok]
                    rfl
                  by_cases hm2 : some c.chan ∈ (coreNext s).slab
                  · rw [cursorNext_of_empty_empty h1 (tryRecv_nil_mem hc' hb' hm2)]
                    exact ⟨⟨ch', hc', hb'⟩, Or.inl hpan⟩
                  · rw [cursorNext_of_empty_disc h1 (tryRecv_nil_nomem hc' hb' hm2)]
                    exact ⟨⟨ch', hc', hb'⟩, Or.inl hpan⟩
      · have h1 := tryRecv_nil_nomem hc hb hm
        rw [cursorNext_of_disc h1]
        exact ⟨⟨ch, hc, hb⟩, Or.inr (Or.inr hm)⟩

/-- C4: assuming the wrapped iterator is fused, once a handle's `next()`
has returned end-of-sequence, every later `next()` call on that handle
returns end-of-sequence again, whatever other atomic activity (pulls,
receives, clones, drops by any handles) happens in between. -/
theorem c4_eos_permanent {s : SIState α} {c : Cursor}
    (hlt : c.chan < s.chans.length) (hf : Fused s.src)
    (hnone : (cursorNext c s).1 = none) (acts : List Act) :
    (cursorNext c (steps acts (cursorNext c s).2)).1 = none :=
  dead_next (dead_steps acts (deadC_of_next_none hlt hf hnone))

/-- Witness for C4: source `[5]`; the root drains it, gets `none`, and the
following `next()` (with an extra pull of the exhausted source in between)
still returns `none`. -/
theorem c4_witness :
    0 < (cursorNext rootCursor (initState (srcOf [5]))).2.chans.length ∧
    (cursorNext rootCursor (steps [Act.pull]
        (cursorNext rootCursor
          (cursorNext rootCursor (initState (srcOf [5]))).2).2)).1 = none :=
  ⟨by decide,
   c4_eos_permanent (by decide) (fused_srcOf [5]) (by decide) [Act.pull]⟩

theorem coreNext_slab (s : SIState α) : (coreNext s).slab = s.slab := by
  by_cases hp : s.panicked = true
  · rw [coreNext_panicked hp]
  · have hp' : s.panicked = false := by revert hp; cases s.panicked <;> simp
    cases hv : s.src s.pulled with
    | none => rw [coreNext_none hp' hv]
    | some v => rw [coreNext_some hp' hv]

theorem coreNext_chans_length (s : SIState α) :
    (coreNext s).chans.length = s.chans.length := by
  by_cases hp : s.panicked = true
  · rw [coreNext_panicked hp]
  · have hp' : s.panicked = false := by revert hp; cases s.panicked <;> simp
    cases hv : s.src s.pulled with
    | none => rw [coreNext_none hp' hv]
    | some v =>
        rw [coreNext_some hp' hv]
        exact sendAll_length v s.slab s.chans

theorem coreNext_pulled_src (s : SIState α) :
    (coreNext s).src = s.src := by
  by_cases hp : s.panicked = true
  · rw [coreNext_panicked hp]
  · have hp' : s.panicked = false := by revert hp; cases s.panicked <;> simp
    cases hv : s.src s.pulled with
    | none => rw [coreNext_none hp' hv]
    | some v => rw [coreNext_some hp' hv]

theorem cursorNext_slab (c : Cursor) (s : SIState α) :
    (cursorNext c s).2.slab = s.slab := by
  cases hc : s.chans[c.chan]? with
  | none => rw [cursorNext_of_disc (tryRecv_nochan hc)]
  | some ch =>
      cases hb : ch.buf with
      | cons v rest => rw [cursorNext_of_pop (tryRecv_pop hc hb)]
      | nil =>
          by_cases hm : some c.chan ∈ s.slab
          · have h1 := tryRecv_nil_mem hc hb hm
            cases hc2 : (coreNext s).chans[c.chan]? with
            | none =>
                rw [cursorNext_of_empty_disc h1 (tryRecv_nochan hc2)]
                exact coreNext_slab s
            | some ch2 =>
                cases hb2 : ch2.buf with
                | cons w ws =>
                    rw [cursorNext_of_empty_pop h1 (tryRecv_pop hc2 hb2)]
                    exact coreNext_slab s
                | nil =>
                    by_cases hm2 : some c.chan ∈ (coreNext s).slab
                    · rw [cursorNext_of_empty_empty h1 (tryRecv_nil_mem hc2 hb2 hm2)]
                      exact coreNext_slab s
                    · rw [cursorNext_of_empty_disc h1 (tryRecv_nil_nomem hc2 hb2 hm2)]
                      exact coreNext_slab s
          · rw [cursorNext_of_disc (tryRecv_nil_nomem hc hb hm)]

theorem cursorNext_chans_length (c : Cursor) (s : SIState α) :
    (cursorNext c s).2.chans.length = s.chans.length := by
  cases hc : s.chans[c.chan]? with
  | none => rw [cursorNext_of_disc (tryRecv_nochan hc)]
  | some ch =>
      cases hb : ch.buf with
      | cons v rest =>
          rw [cursorNext_of_pop (tryRecv_pop hc hb)]
          exact List.length_set s.chans c.chan _
      | nil =>
          by_cases hm : some c.chan ∈ s.slab
          · have h1 := tryRecv_nil_mem hc hb hm
            cases hc2 : (coreNext s).chans[c.chan]? with
            | none =>
                rw [cursorNext_of_empty_disc h1 (tryRecv_nochan hc2)]
                exact coreNext_chans_length s
            | some ch2 =>
                cases hb2 : ch2.buf with
                | cons w ws =>
                    rw [cursorNext_of_empty_pop h1 (tryRecv_pop hc2 hb2)]
                    rw [List.length_set]
                    exact coreNext_chans_length s
                | nil =>
                    by_cases hm2 : some c.chan ∈ (coreNext s).slab
                    · rw [cursorNext_of_empty_empty h1 (tryRecv_nil_mem hc2 hb2 hm2)]
                      exact coreNext_chans_length s
                    · rw [cursorNext_of_empty_disc h1 (tryRecv_nil_nomem hc2 hb2 hm2)]
                      exact coreNext_chans_length s
          · rw [cursorNext_of_disc (tryRecv_nil_nomem hc hb hm)]

theorem inv_cursorNext (c : Cursor) {s : SIState α} (h : Inv s) :
    Inv (cursorNext c s).2 := by
  cases hc : s.chans[c.chan]? with
  | none => rw [cursorNext_of_disc (tryRecv_nochan hc)]; exact h
  | some ch =>
      cases hb : ch.buf with
      | cons v rest =>
          rw [cursorNext_of_pop (tryRecv_pop hc hb)]
          have h2 := inv_tryRecv c.chan h
          rw [tryRecv_pop hc hb] at h2
          exact h2
      | nil =>
          by_cases hm : some c.chan ∈ s.slab
          · have h1 := tryRecv_nil_mem hc hb hm
            have hcore := inv_coreNext h
            cases hc2 : (coreNext s).chans[c.chan]? with
            | none =>
                rw [cursorNext_of_empty_disc h1 (tryRecv_nochan hc2)]
                exact hcore
            | some ch2 =>
                cases hb2 : ch2.buf with
                | cons w ws =>
                    rw [cursorNext_of_empty_pop h1 (tryRecv_pop hc2 hb2)]
                    have h2 := inv_tryRecv c.chan hcore
                    rw [tryRecv_pop hc2 hb2] at h2
                    exact h2
                | nil =>
                    by_cases hm2 : some c.chan ∈ (coreNext s).slab
                    · rw [cursorNext_of_empty_empty h1 (tryRecv_nil_mem hc2 hb2 hm2)]
                      exact hcore
                    · rw [cursorNext_of_empty_disc h1 (tryRecv_nil_nomem hc2 hb2 hm2)]
                      exact hcore
          · rw [cursorNext_of_disc (tryRecv_nil_nomem hc hb hm)]
            exact h

theorem mem_set_none_iff {sl : List (Option Nat)} {i j k : Nat}
    (hij : sl[i]? = some (some j)) (hne : k ≠ j) :
    some k ∈ sl.set i none ↔ some k ∈ sl := by
  constructor
  · intro h
    rcases List.mem_or_eq_of_mem_set h with hh | hh
    · exact hh
    · exact absurd hh (by simp)
  · intro h
    obtain ⟨p, hp⟩ := List.mem_iff_getElem?.mp h
    have hpi : p ≠ i := by
      intro he
      subst he
      rw [hij] at hp
      injection hp with hh
      exact hne (Option.some.inj hh.symm)
    refine List.mem_iff_getElem?.mpr ⟨p, ?_⟩
    rw [List.getElem?_set_ne (fun hh => hpi hh.symm)]
    exact hp

/-- Two states that agree everywhere except (possibly) on channel `e` and
on `e`-related slab entries: same source progress and panic flag, same
channel table away from `e`, and the same registered senders away from
`e`. Used to show that dropping or cloning a handle does not change what
any other handle observes. -/
structure SimRel (e : Nat) (s t : SIState α) : Prop where
  src : t.src = s.src
  pulled : t.pulled = s.pulled
  pan : t.panicked = s.panicked
  chs : ∀ k, k ≠ e → t.chans[k]? = s.chans[k]?
  mem : ∀ k, k ≠ e → ((some k ∈ t.slab) ↔ (some k ∈ s.slab))

theorem sim_set {e : Nat} {s t : SIState α} {c' : Cursor}
    (hrel : SimRel e s t) {chc : Chan α}
    (hcs : s.chans[c'.chan]? = some chc) (hct : t.chans[c'.chan]? = some chc)
    (upd : Chan α) :
    SimRel e { s with chans := s.chans.set c'.chan upd }
      { t with chans := t.chans.set c'.chan upd } := by
  constructor
  · exact hrel.src
  · exact hrel.pulled
  · exact hrel.pan
  · intro k hk
    by_cases hkc : k = c'.chan
    · rw [hkc]
      show (t.chans.set c'.chan upd)[c'.chan]? = (s.chans.set c'.chan upd)[c'.chan]?
      rw [List.getElem?_set, List.getElem?_set, if_pos rfl, if_pos rfl,
          if_pos (List.getElem?_eq_some.mp hct).1,
          if_pos (List.getElem?_eq_some.mp hcs).1]
    · show (t.chans.set c'.chan upd)[k]? = (s.chans.set c'.chan upd)[k]?
      rw [List.getElem?_set_ne (fun hh => hkc hh.symm),
          List.getElem?_set_ne (fun hh => hkc hh.symm)]
      exact hrel.chs k hk
  · exact hrel.mem

theorem coreNext_sim {e : Nat} {s t : SIState α}
    (hrel : SimRel e s t) (hs : Inv s) (ht : Inv t) :
    SimRel e (coreNext s) (coreNext t) := by
  have hvt : t.src t.pulled = s.src s.pulled := by rw [hrel.src, hrel.pulled]
  cases hv : s.src s.pulled with
  | none =>
      rw [coreNext_none hs.npan hv, coreNext_none ht.npan (hvt.trans hv)]
      constructor
      · exact hrel.src
      · show t.pulled + 1 = s.pulled + 1
        rw [hrel.pulled]
      · exact hrel.pan
      · exact hrel.chs
      · exact hrel.mem
  | some v =>
      rw [coreNext_some hs.npan hv, coreNext_some ht.npan (hvt.trans hv)]
      have hcs := sendAll_char v s.slab s.chans hs.alive hs.inj
      have hct := sendAll_char v t.slab t.chans ht.alive ht.inj
      constructor
      · exact hrel.src
      · show t.pulled + 1 = s.pulled + 1
        rw [hrel.pulled]
      · show (!(sendAll v t.slab t.chans).2) = (!(sendAll v s.slab s.chans).2)
        rw [hcs.1, hct.1]
      · intro k hk
        show (sendAll v t.slab t.chans).1[k]? = (sendAll v s.slab s.chans).1[k]?
        rw [hcs.2 k, hct.2 k, hrel.chs k hk]
        by_cases hm : some k ∈ s.slab
        · rw [if_pos hm, if_pos ((hrel.mem k hk).mpr hm)]
        · rw [if_neg hm, if_neg (fun hh => hm ((hrel.mem k hk).mp hh))]
      · exact hrel.mem

theorem cursorNext_sim {e : Nat} {s t : SIState α} {c' : Cursor}
    (hrel : SimRel e s t) (hs : Inv s) (ht : Inv t) (hce : c'.chan ≠ e) :
    (cursorNext c' t).1 = (cursorNext c' s).1 ∧
    SimRel e (cursorNext c' s).2 (cursorNext c' t).2 := by
  have hent := hrel.chs c'.chan hce
  cases hc : s.chans[c'.chan]? with
  | none =>
      rw [cursorNext_of_disc (tryRecv_nochan hc),
          cursorNext_of_disc (tryRecv_nochan (hent.trans hc))]
      exact ⟨rfl, hrel⟩
  | some chc =>
      have hct : t.chans[c'.chan]? = some chc := hent.trans hc
      cases hb : chc.buf with
      | cons v rest =>
          rw [cursorNext_of_pop (tryRecv_pop hc hb),
              cursorNext_of_pop (tryRecv_pop hct hb)]
          exact ⟨rfl, sim_set hrel hc hct _⟩
      | nil =>
          by_cases hm : some c'.chan ∈ s.slab
          · have hmt : some c'.chan ∈ t.slab := (hrel.mem c'.chan hce).mpr hm
            have h1s := tryRecv_nil_mem hc hb hm
            have h1t := tryRecv_nil_mem hct hb hmt
            have hrel2 := coreNext_sim hrel hs ht
            have hs2 := inv_coreNext hs
            have ht2 := inv_coreNext ht
            have hent2 := hrel2.chs c'.chan hce
            cases hc2 : (coreNext s).chans[c'.chan]? with
            | none =>
                rw [cursorNext_of_empty_disc h1s (tryRecv_nochan hc2),
                    cursorNext_of_empty_disc h1t (tryRecv_nochan (hent2.trans hc2))]
                exact ⟨rfl, hrel2⟩
            | some ch2 =>
                have hct2 : (coreNext t).chans[c'.chan]? = some ch2 := hent2.trans hc2
                cases hb2 : ch2.buf with
                | cons w ws =>
                    rw [cursorNext_of_empty_pop h1s (tryRecv_pop hc2 hb2),
                        cursorNext_of_empty_pop h1t (tryRecv_pop hct2 hb2)]
                    exact ⟨rfl, sim_set hrel2 hc2 hct2 _⟩
                | nil =>
                    by_cases hm2 : some c'.chan ∈ (coreNext s).slab
                    · have hmt2 : some c'.chan ∈ (coreNext t).slab :=
                        (hrel2.mem c'.chan hce).mpr hm2
                      rw [cursorNext_of_empty_empty h1s (tryRecv_nil_mem hc2 hb2 hm2),
                          cursorNext_of_empty_empty h1t (tryRecv_nil_mem hct2 hb2 hmt2)]
                      exact ⟨rfl, hrel2⟩
                    · have hmt2 : some c'.chan ∉ (coreNext t).slab :=
                        fun hh => hm2 ((hrel2.mem c'.chan hce).mp hh)
                      rw [cursorNext_of_empty_disc h1s (tryRecv_nil_nomem hc2 hb2 hm2),
                          cursorNext_of_empty_disc h1t (tryRecv_nil_nomem hct2 hb2 hmt2)]
                      exact ⟨rfl, hrel2⟩
          · have hmt : some c'.chan ∉ t.slab :=
              fun hh => hm ((hrel.mem c'.chan hce).mp hh)
            rw [cursorNext_of_disc (tryRecv_nil_nomem hc hb hm),
                cursorNext_of_disc (tryRecv_nil_nomem hct hb hmt)]
            exact ⟨rfl, hrel⟩

theorem takeN_sim {e : Nat} {c' : Cursor} (hce : c'.chan ≠ e) :
    ∀ (n : Nat) (s t : SIState α), SimRel e s t → Inv s → Inv t →
      (takeN c' n t).1 = (takeN c' n s).1 := by
  intro n
  induction n with
  | zero => intro s t _ _ _; rfl
  | succ n ih =>
      intro s t hrel hs ht
      obtain ⟨hv, hrel2⟩ := cursorNext_sim hrel hs ht hce
      have hinvs := inv_cursorNext c' hs
      have hinvt := inv_cursorNext c' ht
      rw [takeN, takeN]
      rw [← @Prod.mk.eta _ _ (cursorNext c' s), ← @Prod.mk.eta _ _ (cursorNext c' t), hv]
      cases hcase : (cursorNext c' s).1 with
      | none => rfl
      | some v =>
          show v :: (takeN c' n (cursorNext c' t).2).1
              = v :: (takeN c' n (cursorNext c' s).2).1
          rw [ih (cursorNext c' s).2 (cursorNext c' t).2 hrel2 hinvs hinvt]

/-- C6: dropping a handle only removes its own sender and receiver; every
other handle subsequently observes exactly the same values as it would
have without the drop. In particular a clone that is dropped without
reading anything does not prevent the root from draining the source. -/
theorem c6_drop_frame {s : SIState α} (c c' : Cursor) (n : Nat)
    (hinv : Inv s) (hcs : s.slab[c.slot]? = some (some c.chan))
    (hne : c'.chan ≠ c.chan) :
    (takeN c' n (dropC c s)).1 = (takeN c' n s).1 := by
  have hrel : SimRel c.chan s (dropC c s) := by
    constructor
    · rfl
    · rfl
    · rfl
    · intro k hk
      show (killChan c.chan s.chans)[k]? = s.chans[k]?
      rw [killChan]
      cases hc0 : s.chans[c.chan]? with
      | none => rfl
      | some ch0 => exact List.getElem?_set_ne (fun hh => hk hh.symm)
    · intro k hk
      show (some k ∈ s.slab.set c.slot none) ↔ (some k ∈ s.slab)
      exact mem_set_none_iff hcs hk
  have hinvd : Inv (dropC c s) := inv_dropC hinv hcs
  exact takeN_sim hne n s (dropC c s) hrel hinv hinvd

/-- Witness for C6, the spec's scenario (4): source `[1, 2, 3]`; a clone
is created and immediately dropped without reading; the root still drains
`[1, 2, 3]`, the same as without the drop. -/
theorem c6_witness :
    rootCursor.chan ≠ (cloneS (initState (srcOf [1, 2, 3]))).1.chan ∧
    (takeN rootCursor 4 (dropC (cloneS (initState (srcOf [1, 2, 3]))).1
        (cloneS (initState (srcOf [1, 2, 3]))).2)).1
      = (takeN rootCursor 4 (cloneS (initState (srcOf [1, 2, 3]))).2).1 ∧
    (takeN rootCursor 4 (dropC (cloneS (initState (srcOf [1, 2, 3]))).1
        (cloneS (initState (srcOf [1, 2, 3]))).2)).1 = [1, 2, 3] :=
  ⟨by decide,
   c6_drop_frame (cloneS (initState (srcOf [1, 2, 3]))).1 rootCursor 4
     (inv_cloneS (inv_init (srcOf [1, 2, 3]))) (by decide) (by decide),
   by decide⟩

/-- C10: cloning never pulls the source (the pull counter is unchanged)
and never modifies any existing channel; and every existing handle
subsequently observes exactly the same values as it would have without
the clone. -/
theorem c10_clone_frame {s : SIState α} (c' : Cursor) (n : Nat)
    (hinv : Inv s) (hlt : c'.chan < s.chans.length) :
    (cloneS s).2.pulled = s.pulled ∧
    (∀ k, k < s.chans.length → (cloneS s).2.chans[k]? = s.chans[k]?) ∧
    (takeN c' n (cloneS s).2).1 = (takeN c' n s).1 := by
  refine ⟨rfl, ?_, ?_⟩
  · intro k hk
    show (s.chans ++ [⟨[], [], (producedL s).length, true⟩])[k]? = s.chans[k]?
    exact List.getElem?_append_left hk
  · have hrel : SimRel s.chans.length s (cloneS s).2 := by
      constructor
      · rfl
      · rfl
      · rfl
      · intro k hk
        show (s.chans ++ [⟨[], [], (producedL s).length, true⟩])[k]? = s.chans[k]?
        by_cases hklt : k < s.chans.length
        · exact List.getElem?_append_left hklt
        · have h1 : s.chans.length ≤ k := Nat.le_of_not_lt hklt
          have h2 : (s.chans ++ [(⟨[], [], (producedL s).length, true⟩ : Chan α)]).length ≤ k := by
            rw [List.length_append]
            simp
            omega
          rw [List.getElem?_eq_none h1, List.getElem?_eq_none h2]
      · intro k hk
        show (some k ∈ slabInsert s.chans.length s.slab) ↔ (some k ∈ s.slab)
        rw [mem_slabInsert]
        constructor
        · rintro (h | h)
          · exact absurd h hk
          · exact h
        · exact Or.inr
    have hne : c'.chan ≠ s.chans.length := by omega
    exact takeN_sim hne n s (cloneS s).2 hrel hinv (inv_cloneS hinv)

/-- Witness for C10: source `[1, 2]` with one value already read by the
root; after a clone, the root's next three reads are the same as without
the clone. -/
theorem c10_witness :
    rootCursor.chan < (cursorNext rootCursor (initState (srcOf [1, 2]))).2.chans.length ∧
    (takeN rootCursor 3
        (cloneS (cursorNext rootCursor (initState (srcOf [1, 2]))).2).2).1
      = (takeN rootCursor 3 (cursorNext rootCursor (initState (srcOf [1, 2]))).2).1 :=
  ⟨by decide,
   (c10_clone_frame rootCursor 3
     (inv_cursorNext rootCursor (inv_init (srcOf [1, 2]))) (by decide)).2.2⟩

end SharedIterVerif
